import Mathlib

/-!
Verification of the dataset-creator script (src/app.py) against its
natural-language specification.

The script is embedded shallowly: text is a list of characters, each Python
function or inline block becomes a Lean definition that follows the source
line by line.  Machine details that the claims depend on (Python regex
matching as performed by re.sub, json.dumps / json.loads on the record
schema, str.split, str.strip, str.lower, file readlines) are modelled
executably so that every claim can be settled by proof or by evaluation on
concrete inputs.

Note on character sets: the source operates on Python unicode strings; the
regex classes \d, \w, \s, [A-Z], [a-z] are modelled over their ASCII
meaning (the spec and all claim inputs are ASCII), and str.strip / str.lower
are modelled on the same ASCII subset.
-/

namespace MHApp

/-- Text is a list of characters (a shallow model of a Python str). -/
abbrev Str := List Char

/-- Coerce a Lean string literal to the character-list model. -/
def cs (s : String) : Str := s.data

/- ### Character classes used by the regexes in scrub_text (ASCII meaning) -/

/-- Python regex class \d (ASCII digits). -/
def isDigitCh (c : Char) : Bool := '0' ≤ c && c ≤ '9'

/-- Regex class [A-Z]. -/
def isUpperCh (c : Char) : Bool := 'A' ≤ c && c ≤ 'Z'

/-- Regex class [a-z]. -/
def isLowerCh (c : Char) : Bool := 'a' ≤ c && c ≤ 'z'

/-- Python regex class \s and the character set stripped by str.strip:
space, tab, newline, carriage return, vertical tab, form feed. -/
def isWsCh (c : Char) : Bool :=
  c = ' ' || c = '\t' || c = '\n' || c = '\r' || c = '\x0b' || c = '\x0c'

/-- Python regex class \w (ASCII meaning): letters, digits, underscore. -/
def isWordCh (c : Char) : Bool :=
  isDigitCh c || isUpperCh c || isLowerCh c || c = '_'

/-- The character class [\w.-] of the email pattern in scrub_text. -/
def isEmailCh (c : Char) : Bool := isWordCh c || c = '.' || c = '-'

/-- The separator class [-.\s] of the phone pattern in scrub_text. -/
def isSepCh (c : Char) : Bool := c = '-' || c = '.' || isWsCh c

/-- Length of the maximal prefix of s whose characters satisfy p
(how far a greedy single-character-class repetition reaches). -/
def firstRun (p : Char → Bool) : Str → Nat
  | [] => 0
  | c :: rest => if p c then firstRun p rest + 1 else 0

/-- Consume exactly n digit characters (a regex group like \d{3}),
returning the remainder, or none if fewer than n digits are next. -/
def dropDigits : Nat → Str → Option Str
  | 0, s => some s
  | _ + 1, [] => none
  | n + 1, c :: rest => if isDigitCh c then dropDigits n rest else none

end MHApp

namespace MHApp

/- ### The four pattern matchers of scrub_text (src/app.py lines 33-36)

Each matcher answers: does the pattern match at the start of s (with prev
the character just before this position in the original string, used only
for the word boundary \b)?  It returns the length of the match Python's
backtracking engine produces there.

Every repetition in the four patterns ranges over a single-character class,
and in each pattern every greedy choice is followed by a token whose
character set is disjoint from the repeated class, so declining part of a
greedy choice always places a character of the repeated class where the
next token cannot accept it.  Hence the greedy (leftmost-longest-per-token)
choice is exact and no backtracking alternative can succeed where the
greedy one fails; the matchers below therefore implement the greedy choice
directly.  Each source pattern is quoted at its matcher. -/

/-- Pattern 1 (line 33): \b[A-Z][a-z]+\s[A-Z][a-z]+\b.
The leading \b holds iff the previous character is not a word character
(the first matched character [A-Z] always is one); the trailing \b holds
iff the character after the second lowercase run is absent or not a word
character.  Backtracking note: shortening either [a-z]+ run exposes a
lowercase letter to \s or to \b, which both reject it, so the maximal runs
are exact. -/
def matchName (prev : Option Char) (s : Str) : Option Nat :=
  if (match prev with | some c => isWordCh c | none => false) then none
  else
    match s with
    | [] => none
    | c0 :: s0 =>
      if isUpperCh c0 then
        let a := firstRun isLowerCh s0
        if a = 0 then none
        else
          match s0.drop a with
          | [] => none
          | cw :: s1 =>
            if isWsCh cw then
              match s1 with
              | [] => none
              | c1 :: s2 =>
                if isUpperCh c1 then
                  let b := firstRun isLowerCh s2
                  if b = 0 then none
                  else
                    match s2.drop b with
                    | [] => some (a + b + 3)
                    | c2 :: _ => if isWordCh c2 then none else some (a + b + 3)
                else none
            else none
      else none

/-- Pattern 2 (line 34): \d{1,2}/\d{1,2}/\d{2,4}.
\d{1,2} takes min(run, 2) digits; if the character after them is not the
required slash, any shorter choice exposes a digit to the slash position
and also fails, so the pattern fails at this position exactly when the
greedy choice does.  The final \d{2,4} takes min(run, 4) digits and needs
at least 2; nothing follows it, so no backtracking can occur. -/
def matchDate (_prev : Option Char) (s : Str) : Option Nat :=
  let r1 := firstRun isDigitCh s
  if r1 = 0 then none
  else
    let k1 := min r1 2
    match s.drop k1 with
    | [] => none
    | c :: s1 =>
      if c = '/' then
        let r2 := firstRun isDigitCh s1
        if r2 = 0 then none
        else
          let k2 := min r2 2
          match s1.drop k2 with
          | [] => none
          | c2 :: s2 =>
            if c2 = '/' then
              let r3 := firstRun isDigitCh s2
              if r3 < 2 then none else some (k1 + 1 + k2 + 1 + min r3 4)
            else none
      else none

/-- Pattern 3 (line 35): \(?\d{3}\)?[-.\s]?\d{3}[-.\s]?\d{4}.
Each optional token ( ( , ) , separator ) is over characters that are not
digits, and each is followed by a digit group, so declining a present
optional places that non-digit character where a digit is required and
fails at once; the greedy take-it-if-present choice is exact. -/
def matchPhone (_prev : Option Char) (s : Str) : Option Nat :=
  let p1s1 : Nat × Str :=
    match s with
    | c :: t => if c = '(' then (1, t) else (0, s)
    | [] => (0, s)
  match dropDigits 3 p1s1.2 with
  | none => none
  | some s2 =>
    let p2s3 : Nat × Str :=
      match s2 with
      | c :: t => if c = ')' then (1, t) else (0, s2)
      | [] => (0, s2)
    let p3s4 : Nat × Str :=
      match p2s3.2 with
      | c :: t => if isSepCh c then (1, t) else (0, p2s3.2)
      | [] => (0, p2s3.2)
    match dropDigits 3 p3s4.2 with
    | none => none
    | some s5 =>
      let p4s6 : Nat × Str :=
        match s5 with
        | c :: t => if isSepCh c then (1, t) else (0, s5)
        | [] => (0, s5)
      match dropDigits 4 p4s6.2 with
      | none => none
      | some _ => some (p1s1.1 + 3 + p2s3.1 + p3s4.1 + 3 + p4s6.1 + 4)

/-- Pattern 4 (line 36): [\w.-]+@[\w.-]+.
The repeated class does not contain @, so shortening the first run exposes
a class character to the @ position and fails; both runs are exactly the
maximal ones. -/
def matchEmail (_prev : Option Char) (s : Str) : Option Nat :=
  let a := firstRun isEmailCh s
  if a = 0 then none
  else
    match s.drop a with
    | [] => none
    | c :: s1 =>
      if c = '@' then
        let b := firstRun isEmailCh s1
        if b = 0 then none else some (a + 1 + b)
      else none

/-- The character preceding the current scan position after consuming l,
falling back to the previous value when l is empty. -/
def lastCh (l : Str) (prev : Option Char) : Option Char :=
  match l.getLast? with
  | some c => some c
  | none => prev

/-- The scan loop of Python re.sub: at each position try the pattern; on a
match emit the replacement and resume immediately after the matched text
(whose last character becomes the new preceding character); otherwise copy
one character and advance.  All four patterns only ever match at least one
character; fuel (initially the input length) bounds the recursion and is
never exhausted on such matchers. -/
def substAux (m : Option Char → Str → Option Nat) (repl : Str) :
    Nat → Option Char → Str → Str
  | 0, _, s => s
  | _ + 1, _, [] => []
  | fuel + 1, prev, c :: rest =>
    match m prev (c :: rest) with
    | some k =>
      if k = 0 then c :: substAux m repl fuel (some c) rest
      else
        repl ++ substAux m repl fuel (lastCh ((c :: rest).take k) prev)
          ((c :: rest).drop k)
    | none => c :: substAux m repl fuel (some c) rest

/-- re.sub(pattern, repl, s) for the patterns modelled above. -/
def reSub (m : Option Char → Str → Option Nat) (repl : Str) (s : Str) : Str :=
  substAux m repl s.length none s

def REDACTED_NAME : Str := cs "[REDACTED_NAME]"
def REDACTED_DATE : Str := cs "[REDACTED_DATE]"
def REDACTED_PHONE : Str := cs "[REDACTED_PHONE]"
def REDACTED_EMAIL : Str := cs "[REDACTED_EMAIL]"

/-- scrub_text (src/app.py lines 32-37): the four substitutions applied in
order, each scanning the output of the previous one. -/
def scrub_text (text : Str) : Str :=
  let t1 := reSub matchName REDACTED_NAME text
  let t2 := reSub matchDate REDACTED_DATE t1
  let t3 := reSub matchPhone REDACTED_PHONE t2
  reSub matchEmail REDACTED_EMAIL t3

end MHApp

namespace MHApp

/- ### Segmenter (src/app.py lines 39-44) -/

/-- Python text.split(the newline character): note the result is never
empty and an empty text yields one empty piece. -/
def splitNl : Str → List Str
  | [] => [[]]
  | c :: rest =>
    if c = '\n' then [] :: splitNl rest
    else
      match splitNl rest with
      | [] => [[c]]
      | h :: t => (c :: h) :: t

/-- Python str.strip(): drop leading and trailing whitespace. -/
def pyStrip (s : Str) : Str :=
  ((s.dropWhile isWsCh).reverse.dropWhile isWsCh).reverse

/-- Line 40: the list comprehension producing the stripped non-empty
lines. -/
def paragraphs (text : Str) : List Str :=
  ((splitNl text).map pyStrip).filter (fun p => !p.isEmpty)

/-- One prompt/response/tag record. -/
structure Record where
  prompt : Str
  response : Str
  tag : Str
deriving DecidableEq, Repr

/-- Lines 41-43: the loop for i in range(0, len(paragraphs)-1, 2) appends
one record per consecutive pair (element i as prompt, element i+1 as
response); a final unpaired element is never visited. -/
def pairRec (tag : Str) : List Str → List Record
  | a :: b :: rest => ⟨a, b, tag⟩ :: pairRec tag rest
  | _ => []

/-- segment_into_pairs (src/app.py lines 39-44). -/
def segment_into_pairs (text tag : Str) : List Record :=
  pairRec tag (paragraphs text)

end MHApp

namespace MHApp

/- ### JSON model: json.dumps on a record (line 68) and json.loads on a
file line (lines 98-99).

json.dumps with default options escapes the double quote, the backslash,
the five short-named control characters, every other character below 0x20,
and (ensure_ascii) every character above 0x7e, the latter as \uXXXX with
lowercase hex digits, using a UTF-16 surrogate pair for characters beyond
0xffff. -/

/-- Lowercase hex digit for a value below 16. -/
def hexDigitCh (n : Nat) : Char :=
  if n < 10 then Char.ofNat (48 + n) else Char.ofNat (87 + n)

/-- Four lowercase hex digits of a value below 0x10000. -/
def hex4 (n : Nat) : Str :=
  [hexDigitCh (n / 4096 % 16), hexDigitCh (n / 256 % 16),
   hexDigitCh (n / 16 % 16), hexDigitCh (n % 16)]

/-- A \uXXXX escape. -/
def uEsc (n : Nat) : Str := '\\' :: 'u' :: hex4 n

/-- How json.dumps renders one character inside a string literal. -/
def escChar (c : Char) : Str :=
  if c = '"' then ['\\', '"']
  else if c = '\\' then ['\\', '\\']
  else if c = '\n' then ['\\', 'n']
  else if c = '\t' then ['\\', 't']
  else if c = '\r' then ['\\', 'r']
  else if c = '\x08' then ['\\', 'b']
  else if c = '\x0c' then ['\\', 'f']
  else if c.toNat < 0x20 then uEsc c.toNat
  else if c.toNat ≤ 0x7e then [c]
  else if c.toNat ≤ 0xffff then uEsc c.toNat
  else uEsc (0xd800 + (c.toNat - 0x10000) / 0x400) ++
       uEsc (0xdc00 + (c.toNat - 0x10000) % 0x400)

def escString : Str → Str
  | [] => []
  | c :: rest => escChar c ++ escString rest

/-- A JSON string literal, quotes included. -/
def jstring (s : Str) : Str := '"' :: (escString s ++ ['"'])

/-- json.dumps(\x7b"prompt": p, "response": r, "tag": t\x7d) with default
separators (", " and ": ") and insertion-ordered keys, as built on line 43
and serialized on line 68. -/
def dumpsRecord (r : Record) : Str :=
  '\x7b' :: (jstring (cs "prompt") ++ cs ": " ++ jstring r.prompt ++ cs ", " ++
    jstring (cs "response") ++ cs ": " ++ jstring r.response ++ cs ", " ++
    jstring (cs "tag") ++ cs ": " ++ jstring r.tag ++ ['\x7d'])

/-- Python "\n".join. -/
def joinNl : List Str → Str
  | [] => []
  | [l] => l
  | l :: rest => l ++ '\n' :: joinNl rest

/-- Line 68: the file content written by the save block (and copied
byte-identically to the versioned location by line 77). -/
def saveContent (records : List Record) : Str :=
  joinNl (records.map dumpsRecord)

/-- Python file.readlines(): split after every newline, keeping the
newline in each piece; a last piece without a newline is kept as is; an
empty file yields no lines. -/
def readlines : Str → List Str
  | [] => []
  | c :: rest =>
    if c = '\n' then ['\n'] :: readlines rest
    else
      match readlines rest with
      | [] => [[c]]
      | h :: t => (c :: h) :: t

/-- The JSON values json.loads can return (numbers kept as their source
text, which is all the claims need). -/
inductive Jv where
  | jstr (s : Str)
  | jnum (raw : Str)
  | jbool (b : Bool)
  | jnull
  | jarr (l : List Jv)
  | jobj (l : List (Str × Jv))
deriving Repr

/-- JSON whitespace accepted between tokens by json.loads. -/
def isJsonWs (c : Char) : Bool := c = ' ' || c = '\t' || c = '\n' || c = '\r'

def skipWs (s : Str) : Str := s.dropWhile isJsonWs

/-- Value of one hex digit (either case), as accepted in \uXXXX. -/
def hexVal (c : Char) : Option Nat :=
  if '0' ≤ c ∧ c ≤ '9' then some (c.toNat - 48)
  else if 'a' ≤ c ∧ c ≤ 'f' then some (c.toNat - 87)
  else if 'A' ≤ c ∧ c ≤ 'F' then some (c.toNat - 55)
  else none

/-- Read four hex digits. -/
def hex4Val : Str → Option (Nat × Str)
  | a :: b :: c :: d :: rest => do
    let va ← hexVal a
    let vb ← hexVal b
    let vc ← hexVal c
    let vd ← hexVal d
    pure (((va * 16 + vb) * 16 + vc) * 16 + vd, rest)
  | _ => none

/- The next three definitions model the body of a JSON string literal
after its opening quote, as scanned by json.loads (strict mode): literal
control characters are rejected, escape sequences are decoded.  Fuel of
parseStringBody: one unit per decoded character, so the input length is
always enough. -/

/-- The eight single-character escape sequences json.loads accepts. -/
def escDecode1 (e : Char) : Option Char :=
  if e = '"' then some '"'
  else if e = '\\' then some '\\'
  else if e = '/' then some '/'
  else if e = 'n' then some '\n'
  else if e = 't' then some '\t'
  else if e = 'r' then some '\r'
  else if e = 'b' then some '\x08'
  else if e = 'f' then some '\x0c'
  else none

/-- Decode the remainder of a \uXXXX escape (the input starts at the first
hex digit): a high surrogate immediately followed by a low surrogate
escape is combined into one character; Python would keep an unpaired
surrogate as a lone-surrogate character, which a Lean Char cannot be, so
that corner is mapped to U+0000 by Char.ofNat. -/
def parseUEsc (r : Str) : Option (Char × Str) :=
  match hex4Val r with
  | none => none
  | some (v, r1) =>
    if 0xd800 ≤ v ∧ v < 0xdc00 then
      match r1 with
      | c1 :: c2 :: r2 =>
        if c1 = '\\' ∧ c2 = 'u' then
          match hex4Val r2 with
          | none => some (Char.ofNat v, r1)
          | some (w, r3) =>
            if 0xdc00 ≤ w ∧ w < 0xe000 then
              some (Char.ofNat (0x10000 + (v - 0xd800) * 0x400 + (w - 0xdc00)), r3)
            else some (Char.ofNat v, r1)
        else some (Char.ofNat v, r1)
      | _ => some (Char.ofNat v, r1)
    else some (Char.ofNat v, r1)

def parseStringBody : Nat → Str → Option (Str × Str)
  | _, [] => none
  | 0, c :: rest => if c = '"' then some ([], rest) else none
  | f + 1, c :: rest =>
    if c = '"' then some ([], rest)
    else if c = '\\' then
      match rest with
      | [] => none
      | e :: r =>
        if e = 'u' then
          match parseUEsc r with
          | none => none
          | some (ch, r1) => (parseStringBody f r1).map (fun p => (ch :: p.1, p.2))
        else
          match escDecode1 e with
          | none => none
          | some ch => (parseStringBody f r).map (fun p => (ch :: p.1, p.2))
    else if c.toNat < 0x20 then none
    else (parseStringBody f rest).map (fun p => (c :: p.1, p.2))

/-- Expect a fixed literal word, return the remainder. -/
def parseLit : Str → Str → Option Str
  | [], s => some s
  | _ :: _, [] => none
  | c :: w, d :: s => if c = d then parseLit w s else none

/-- The integer part of the JSON number grammar: -?(0|[1-9][0-9]*) is
handled by the caller for the sign; here 0 or a nonzero-led digit run. -/
def parseIntPart : Str → Option (Str × Str)
  | [] => none
  | c :: r =>
    if c = '0' then some (['0'], r)
    else if isDigitCh c then
      some (c :: r.take (firstRun isDigitCh r), r.drop (firstRun isDigitCh r))
    else none

/-- The JSON number token as matched by json.loads (kept as raw text). -/
def parseNumber (s : Str) : Option (Str × Str) :=
  let negs1 : Str × Str := match s with | '-' :: r => (['-'], r) | _ => ([], s)
  match parseIntPart negs1.2 with
  | none => none
  | some (ip, r) =>
    let fpr2 : Str × Str :=
      match r with
      | '.' :: r1 =>
        if firstRun isDigitCh r1 = 0 then ([], r)
        else ('.' :: r1.take (firstRun isDigitCh r1), r1.drop (firstRun isDigitCh r1))
      | _ => ([], r)
    let epr3 : Str × Str :=
      match fpr2.2 with
      | e :: r1 =>
        if e = 'e' ∨ e = 'E' then
          match r1 with
          | sg :: r2 =>
            if sg = '+' ∨ sg = '-' then
              if firstRun isDigitCh r2 = 0 then ([], fpr2.2)
              else (e :: sg :: r2.take (firstRun isDigitCh r2), r2.drop (firstRun isDigitCh r2))
            else
              if firstRun isDigitCh r1 = 0 then ([], fpr2.2)
              else (e :: r1.take (firstRun isDigitCh r1), r1.drop (firstRun isDigitCh r1))
          | [] => ([], fpr2.2)
        else ([], fpr2.2)
      | [] => ([], fpr2.2)
    some (negs1.1 ++ ip ++ fpr2.1 ++ epr3.1, epr3.2)

end MHApp

namespace MHApp

/- ### json.loads top level

A single recursion over fuel handles the three mutually recursive parsing
jobs (a value, the members of an object after its opening brace, the
elements of an array after its opening bracket).  Every two recursion
steps consume at least one input character, so fuel twice the input
length (plus a constant) is always enough. -/

inductive PJob where
  | val (s : Str)
  | mems (s : Str)
  | elems (s : Str)

inductive PRes where
  | v (j : Jv)
  | ms (l : List (Str × Jv))
  | es (l : List Jv)

def pjson : Nat → PJob → Option (PRes × Str)
  | 0, _ => none
  | f + 1, .val s0 =>
    match skipWs s0 with
    | [] => none
    | c :: first =>
      if c = '"' then
        (parseStringBody first.length first).map (fun p => (.v (.jstr p.1), p.2))
      else if c = '\x7b' then
        match skipWs first with
        | [] => none
        | c2 :: r2 =>
          if c2 = '\x7d' then some (.v (.jobj []), r2)
          else
            match pjson f (.mems first) with
            | some (.ms l, r) => some (.v (.jobj l), r)
            | _ => none
      else if c = '[' then
        match skipWs first with
        | [] => none
        | c2 :: r2 =>
          if c2 = ']' then some (.v (.jarr []), r2)
          else
            match pjson f (.elems first) with
            | some (.es l, r) => some (.v (.jarr l), r)
            | _ => none
      else if c = 't' then (parseLit (cs "rue") first).map (fun r => (.v (.jbool true), r))
      else if c = 'f' then (parseLit (cs "alse") first).map (fun r => (.v (.jbool false), r))
      else if c = 'n' then (parseLit (cs "ull") first).map (fun r => (.v .jnull, r))
      else if c = 'N' then (parseLit (cs "aN") first).map (fun r => (.v (.jnum (cs "NaN")), r))
      else if c = 'I' then
        (parseLit (cs "nfinity") first).map (fun r => (.v (.jnum (cs "Infinity")), r))
      else if c = '-' then
        match first with
        | 'I' :: r1 =>
          (parseLit (cs "nfinity") r1).map (fun r => (.v (.jnum (cs "-Infinity")), r))
        | _ =>
          match parseNumber (c :: first) with
          | some (raw, r) => some (.v (.jnum raw), r)
          | none => none
      else
        match parseNumber (c :: first) with
        | some (raw, r) => some (.v (.jnum raw), r)
        | none => none
  | f + 1, .mems s0 =>
    match skipWs s0 with
    | [] => none
    | c :: r =>
      if c = '"' then
        match parseStringBody r.length r with
        | none => none
        | some (key, r1) =>
          match skipWs r1 with
          | [] => none
          | c2 :: r2 =>
            if c2 = ':' then
              match pjson f (.val r2) with
              | some (.v v, r3) =>
                (match skipWs r3 with
                 | [] => none
                 | c3 :: r4 =>
                   if c3 = ',' then
                     match pjson f (.mems r4) with
                     | some (.ms l, r5) => some (.ms ((key, v) :: l), r5)
                     | _ => none
                   else if c3 = '\x7d' then some (.ms [(key, v)], r4)
                   else none)
              | _ => none
            else none
      else none
  | f + 1, .elems s0 =>
    match pjson f (.val s0) with
    | some (.v v, r) =>
      (match skipWs r with
       | [] => none
       | c2 :: r2 =>
         if c2 = ',' then
           match pjson f (.elems r2) with
           | some (.es l, r3) => some (.es (v :: l), r3)
           | _ => none
         else if c2 = ']' then some (.es [v], r2)
         else none)
    | _ => none

/-- json.loads on one line: parse one value, then only whitespace may
remain; any failure is the ParseError of the spec (modelled as none). -/
def pyJsonLoads (line : Str) : Option Jv :=
  match pjson (2 * line.length + 2) (.val line) with
  | some (.v v, r) => if skipWs r = [] then some v else none
  | _ => none

/-- One json.loads call per line, first failure aborting the whole list
(the list comprehension propagates the exception). -/
def loadLines : List Str → Option (List Jv)
  | [] => some []
  | line :: rest =>
    match pyJsonLoads line, loadLines rest with
    | some v, some vs => some (v :: vs)
    | _, _ => none

/-- The load block (src/app.py lines 97-99): read the file's lines and
apply json.loads to every one of them; any failing line aborts the whole
load, so no partial result is ever produced. -/
def load (content : Str) : Option (List Jv) :=
  loadLines (readlines content)

/-- The JSON value json.loads returns for one serialized record. -/
def recordJv (r : Record) : Jv :=
  .jobj [(cs "prompt", .jstr r.prompt), (cs "response", .jstr r.response),
         (cs "tag", .jstr r.tag)]

/-- Python dict lookup on a parsed object: with duplicate keys the last
occurrence wins, as in dict construction. -/
def lookupKeyLast (k : Str) : List (Str × Jv) → Option Jv
  | [] => none
  | (k2, v) :: rest =>
    match lookupKeyLast k rest with
    | some v2 => some v2
    | none => if k2 = k then some v else none

/-- The three record fields of a parsed line, as the comparison block
reads them (entry of prompt / response / tag); none when the value is not
an object with all three fields as strings. -/
def jvFields : Jv → Option (Str × Str × Str)
  | .jobj l =>
    match lookupKeyLast (cs "prompt") l, lookupKeyLast (cs "response") l,
        lookupKeyLast (cs "tag") l with
    | some (.jstr p), some (.jstr r), some (.jstr t) => some (p, r, t)
    | _, _, _ => none
  | _ => none

end MHApp

namespace MHApp

/- ### Comparator (src/app.py lines 88-123) -/

/-- Python str.lower on the ASCII range. -/
def lowerCh (c : Char) : Char :=
  if isUpperCh c then Char.ofNat (c.toNat + 32) else c

def lowerS (s : Str) : Str := s.map lowerCh

/-- Python substring containment (needle in hay). -/
def startsWithS : Str → Str → Bool
  | [], _ => true
  | _ :: _, [] => false
  | a :: n, b :: h => a = b && startsWithS n h

def hasSub (needle hay : Str) : Bool :=
  startsWithS needle hay ||
    match hay with
    | [] => false
    | _ :: t => hasSub needle t

/-- The filter of lines 101-102: keyword in prompt.lower() or in
response.lower(), and, when a tag filter was given, tag_filter in
tag.lower().  Both keyword and tag_filter arrive already lowercased
(lines 93-94). -/
def entryMatches (keyword tagF : Str) (r : Record) : Bool :=
  (hasSub keyword (lowerS r.prompt) || hasSub keyword (lowerS r.response)) &&
  (if !tagF.isEmpty then hasSub tagF (lowerS r.tag) else true)

structure CompareResult where
  matches1 : List Record
  matches2 : List Record
  count1 : Nat
  count2 : Nat
  combined : List Record
deriving DecidableEq, Repr

/-- The comparison block (lines 96-123): the guard on line 96 requires the
two selected filenames to differ and the keyword to be non-empty; inside,
matches1 and matches2 filter the two loaded sequences (lines 101-102), the
reported counts are their lengths (lines 105-107), and the exportable
combined sequence is their concatenation (line 123).  kwRaw and tagRaw are
the raw form inputs, lowercased on lines 93-94. -/
def compareVersions (v1 v2 : Str) (data1 data2 : List Record)
    (kwRaw tagRaw : Str) : Option CompareResult :=
  let keyword := lowerS kwRaw
  let tagF := lowerS tagRaw
  if v1 ≠ v2 ∧ ¬keyword.isEmpty then
    let m1 := data1.filter (entryMatches keyword tagF)
    let m2 := data2.filter (entryMatches keyword tagF)
    some ⟨m1, m2, m1.length, m2.length, m1 ++ m2⟩
  else none

end MHApp

namespace MHApp

/- ### Derived notions used to state the claims -/

/-- Does the pattern match at some position of s, scanning like re.sub
(prev tracks the character before the current position)? -/
def hasMatchFrom (m : Option Char → Str → Option Nat) : Option Char → Str → Bool
  | _, [] => false
  | prev, c :: rest => (m prev (c :: rest)).isSome || hasMatchFrom m (some c) rest

def hasMatch (m : Option Char → Str → Option Nat) (s : Str) : Bool :=
  hasMatchFrom m none s

/-- Number of positions of hay at which needle occurs. -/
def countSub (needle : Str) : Str → Nat
  | [] => 0
  | c :: t => (if startsWithS needle (c :: t) then 1 else 0) + countSub needle t

/-- Index of the first occurrence of needle in hay. -/
def idxSub (needle : Str) : Str → Option Nat
  | [] => none
  | c :: t =>
    if startsWithS needle (c :: t) then some 0 else (idxSub needle t).map (· + 1)

/- ### Segmenter lemmas -/

theorem pairRec_length (tag : Str) : ∀ l, (pairRec tag l).length = l.length / 2
  | [] => rfl
  | [_] => by simp [pairRec]
  | _ :: _ :: rest => by
    simp only [pairRec, List.length_cons, pairRec_length tag rest]
    omega

theorem pairRec_get (tag : Str) : ∀ l i, 2 * i + 1 < l.length →
    (pairRec tag l)[i]? =
      some ⟨l.getD (2 * i) [], l.getD (2 * i + 1) [], tag⟩
  | [], _, h => by simp at h
  | [_], i, h => by simp at h
  | a :: b :: rest, 0, _ => by simp [pairRec]
  | a :: b :: rest, i + 1, h => by
    have h2 : 2 * i + 1 < rest.length := by
      simp only [List.length_cons] at h; omega
    have e1 : 2 * (i + 1) = 2 * i + 1 + 1 := by omega
    have e2 : 2 * (i + 1) + 1 = 2 * i + 1 + 1 + 1 := by omega
    simp only [pairRec, List.getElem?_cons_succ, e1, e2, List.getD_cons_succ]
    exact pairRec_get tag rest i h2

theorem pairRec_mem (tag : Str) : ∀ l r, r ∈ pairRec tag l →
    r.tag = tag ∧ r.prompt ∈ l ∧ r.response ∈ l
  | [], r, h => by simp [pairRec] at h
  | [_], r, h => by simp [pairRec] at h
  | a :: b :: rest, r, h => by
    rcases List.mem_cons.1 h with h1 | h2
    · subst h1; exact ⟨rfl, by simp, by simp⟩
    · obtain ⟨ht, hp, hr⟩ := pairRec_mem tag rest r h2
      exact ⟨ht, by simp [hp], by simp [hr]⟩

theorem dropWhile_head_not (p : Char → Bool) :
    ∀ s c, (List.dropWhile p s).head? = some c → p c = false
  | [], c, h => by simp [List.dropWhile] at h
  | c0 :: t, c, h => by
    by_cases hp : p c0
    · exact dropWhile_head_not p t c (by simpa [List.dropWhile, hp] using h)
    · simp only [List.dropWhile, hp, Bool.false_eq_true, if_false] at h
      simp only [List.head?] at h
      cases h
      simpa using hp

theorem dropWhile_eq_self (p : Char → Bool) (s : Str)
    (h : ∀ c, s.head? = some c → p c = false) : List.dropWhile p s = s := by
  cases s with
  | nil => rfl
  | cons c t => simp [List.dropWhile, h c rfl]

theorem getLast?_dropWhile (p : Char → Bool) :
    ∀ l, List.dropWhile p l ≠ [] →
      (List.dropWhile p l).getLast? = l.getLast?
  | [], h => by simp [List.dropWhile] at h
  | c :: t, h => by
    by_cases hp : p c
    · have hd : List.dropWhile p (c :: t) = List.dropWhile p t := by
        simp [List.dropWhile, hp]
      rw [hd] at h ⊢
      have ht : t ≠ [] := by
        intro he; rw [he] at h; simp [List.dropWhile] at h
      rw [getLast?_dropWhile p t h]
      cases t with
      | nil => exact absurd rfl ht
      | cons x u => simp [List.getLast?_cons_cons]
    · simp [List.dropWhile, hp]

theorem pyStrip_head (s : Str) :
    ∀ c, (pyStrip s).head? = some c → isWsCh c = false := by
  intro c h
  unfold pyStrip at h
  rw [List.head?_reverse] at h
  by_cases hw : List.dropWhile isWsCh (List.dropWhile isWsCh s).reverse = []
  · rw [hw] at h; simp at h
  · rw [getLast?_dropWhile isWsCh _ hw, List.getLast?_reverse] at h
    exact dropWhile_head_not isWsCh s c h

theorem pyStrip_getLast (s : Str) :
    ∀ c, (pyStrip s).getLast? = some c → isWsCh c = false := by
  intro c h
  unfold pyStrip at h
  rw [List.getLast?_reverse] at h
  exact dropWhile_head_not isWsCh _ c h

theorem pyStrip_idem (s : Str) : pyStrip (pyStrip s) = pyStrip s := by
  have h1 : List.dropWhile isWsCh (pyStrip s) = pyStrip s :=
    dropWhile_eq_self _ _ (pyStrip_head s)
  have h2 : List.dropWhile isWsCh (pyStrip s).reverse = (pyStrip s).reverse := by
    refine dropWhile_eq_self _ _ (fun c hc => ?_)
    rw [List.head?_reverse] at hc
    exact pyStrip_getLast s c hc
  show ((List.dropWhile isWsCh (pyStrip s)).reverse.dropWhile isWsCh).reverse = pyStrip s
  rw [h1, h2, List.reverse_reverse]

theorem paragraphs_mem (T p : Str) (h : p ∈ paragraphs T) :
    pyStrip p = p ∧ p ≠ [] ∧ ∃ line ∈ splitNl T, p = pyStrip line := by
  unfold paragraphs at h
  obtain ⟨hm, hp⟩ := List.mem_filter.1 h
  obtain ⟨line, hl, rfl⟩ := List.mem_map.1 hm
  refine ⟨pyStrip_idem line, ?_, line, hl, rfl⟩
  simpa [List.isEmpty_iff] using hp

theorem paragraphs_length (T : Str) :
    (paragraphs T).length =
      ((splitNl T).filter (fun line => !(pyStrip line).isEmpty)).length := by
  unfold paragraphs
  rw [← List.countP_eq_length_filter, ← List.countP_eq_length_filter,
    List.countP_map]
  rfl

end MHApp

namespace MHApp

/-- Claim C2: segment_into_pairs splits on newlines, discards
whitespace-only lines, pairs the remaining lines consecutively (element 2i
as prompt, element 2i+1 as response, the tag carried verbatim), dropping a
final unpaired line; in particular both example inputs of the spec yield
exactly one record with prompt a and response b. -/
theorem claim2_segment_pairs : ∀ tag : Str,
    segment_into_pairs (cs "a\nb\nc") tag = [⟨cs "a", cs "b", tag⟩] ∧
    segment_into_pairs (cs "a\n\nb\nc") tag = [⟨cs "a", cs "b", tag⟩] ∧
    ∀ T i, 2 * i + 1 < (paragraphs T).length →
      (segment_into_pairs T tag)[i]? =
        some ⟨(paragraphs T).getD (2 * i) [], (paragraphs T).getD (2 * i + 1) [],
          tag⟩ := by
  intro tag
  refine ⟨?_, ?_, ?_⟩
  · show pairRec tag (paragraphs (cs "a\nb\nc")) = _
    have h : paragraphs (cs "a\nb\nc") = [cs "a", cs "b", cs "c"] := by decide
    rw [h]
    simp [pairRec]
  · show pairRec tag (paragraphs (cs "a\n\nb\nc")) = _
    have h : paragraphs (cs "a\n\nb\nc") = [cs "a", cs "b", cs "c"] := by decide
    rw [h]
    simp [pairRec]
  · intro T i h
    exact pairRec_get tag (paragraphs T) i h

/-- Witness for claim C2 at a concrete input: the second emitted record of
a four-line text is the pair of lines 2 and 3. -/
theorem claim2_segment_pairs_witness :
    (segment_into_pairs (cs "alpha\nbeta\ngamma\ndelta") (cs "t"))[1]? =
      some ⟨cs "gamma", cs "delta", cs "t"⟩ := by
  have h := (claim2_segment_pairs (cs "t")).2.2 (cs "alpha\nbeta\ngamma\ndelta") 1
    (by decide)
  exact h.trans (by decide)

/-- Claim C10: every emitted record carries the given tag, its prompt and
response are non-empty, are fixed points of stripping (so carry no leading
or trailing whitespace) and are the stripped forms of source lines; the
number of records is exactly half (rounded down) of the number of lines
that are non-empty after stripping. -/
theorem claim10_segment_invariants : ∀ T tag : Str,
    (segment_into_pairs T tag).length = (paragraphs T).length / 2 ∧
    (paragraphs T).length =
      ((splitNl T).filter (fun line => !(pyStrip line).isEmpty)).length ∧
    ∀ r ∈ segment_into_pairs T tag,
      r.tag = tag ∧
      pyStrip r.prompt = r.prompt ∧ r.prompt ≠ [] ∧
      pyStrip r.response = r.response ∧ r.response ≠ [] ∧
      (∃ line ∈ splitNl T, r.prompt = pyStrip line) ∧
      (∃ line ∈ splitNl T, r.response = pyStrip line) := by
  intro T tag
  refine ⟨pairRec_length tag (paragraphs T), paragraphs_length T, ?_⟩
  intro r hr
  obtain ⟨ht, hp, hq⟩ := pairRec_mem tag (paragraphs T) r hr
  obtain ⟨hp1, hp2, hp3⟩ := paragraphs_mem T r.prompt hp
  obtain ⟨hq1, hq2, hq3⟩ := paragraphs_mem T r.response hq
  exact ⟨ht, hp1, hp2, hq1, hq2, hp3, hq3⟩

/-- Witness for claim C10 at a concrete input: the record emitted for the
text with lines " a " and "b" has the stripped prompt a, which is a fixed
point of stripping, non-empty, and the stripped form of a source line. -/
theorem claim10_segment_invariants_witness :
    pyStrip (cs "a") = cs "a" ∧ (cs "a" : Str) ≠ [] ∧
      ∃ line ∈ splitNl (cs " a \nb"), cs "a" = pyStrip line := by
  have h := (claim10_segment_invariants (cs " a \nb") (cs "t")).2.2
    ⟨cs "a", cs "b", cs "t"⟩ (by decide)
  exact ⟨h.2.1, h.2.2.1, h.2.2.2.2.2.1⟩

/-- Claim C3: scrubbing the spec's example sentence yields exactly the
expected redacted sentence; each redaction token occurs exactly once, at
increasing positions (NAME at 0, PHONE at 25, EMAIL at 45, DATE at 65). -/
theorem claim3_scrub_example :
    scrub_text (cs "Call John Smith at 555-123-4567 or john@example.com on 4/5/2023") =
      cs "[REDACTED_NAME] Smith at [REDACTED_PHONE] or [REDACTED_EMAIL] on [REDACTED_DATE]" ∧
    countSub REDACTED_NAME
      (scrub_text (cs "Call John Smith at 555-123-4567 or john@example.com on 4/5/2023")) = 1 ∧
    countSub REDACTED_PHONE
      (scrub_text (cs "Call John Smith at 555-123-4567 or john@example.com on 4/5/2023")) = 1 ∧
    countSub REDACTED_EMAIL
      (scrub_text (cs "Call John Smith at 555-123-4567 or john@example.com on 4/5/2023")) = 1 ∧
    countSub REDACTED_DATE
      (scrub_text (cs "Call John Smith at 555-123-4567 or john@example.com on 4/5/2023")) = 1 ∧
    idxSub REDACTED_NAME
      (scrub_text (cs "Call John Smith at 555-123-4567 or john@example.com on 4/5/2023")) = some 0 ∧
    idxSub REDACTED_PHONE
      (scrub_text (cs "Call John Smith at 555-123-4567 or john@example.com on 4/5/2023")) = some 25 ∧
    idxSub REDACTED_EMAIL
      (scrub_text (cs "Call John Smith at 555-123-4567 or john@example.com on 4/5/2023")) = some 45 ∧
    idxSub REDACTED_DATE
      (scrub_text (cs "Call John Smith at 555-123-4567 or john@example.com on 4/5/2023")) = some 65 := by
  decide

end MHApp

namespace MHApp

/-- Claim C8: with the same filename selected twice the comparison block
performs no comparison and produces no result; it proceeds (produces a
result) only when the filenames are distinct (the guard also requires a
non-empty keyword, which is why the equivalence below carries both
conditions). -/
theorem claim8_compare_guard :
    (∀ v keyword tagF : Str, ∀ d1 d2 : List Record,
        compareVersions v v d1 d2 keyword tagF = none) ∧
    ∀ v1 v2 keyword tagF : Str, ∀ d1 d2 : List Record,
      compareVersions v1 v2 d1 d2 keyword tagF ≠ none ↔
        v1 ≠ v2 ∧ lowerS keyword ≠ [] := by
  constructor
  · intro v k tf d1 d2
    simp [compareVersions]
  · intro v1 v2 k tf d1 d2
    unfold compareVersions
    by_cases h : v1 ≠ v2 ∧ ¬(lowerS k).isEmpty
    · rw [if_pos h]
      simp only [ne_eq, reduceCtorEq, not_false_iff, true_iff]
      exact ⟨h.1, by simpa [List.isEmpty_iff] using h.2⟩
    · rw [if_neg h]
      simp only [ne_eq, not_true, false_iff, not_and, Decidable.not_not]
      intro hv
      rw [not_and, Decidable.not_not] at h
      have h2 := h hv
      simpa [List.isEmpty_iff] using h2

/-- Claim C9: when the comparison proceeds, each loaded sequence is
independently filtered (a record is kept iff the lowercased keyword occurs
in its lowercased prompt or response, and, when a tag filter was given, the
lowercased tag filter occurs in its lowercased tag), the reported counts
are the lengths of the two filtered sequences, and the combined exportable
sequence is the first file's matches followed by the second file's; a
record with prompt Hello World matches keyword hello. -/
theorem claim9_compare_filter :
    (∀ v1 v2 kwRaw tagRaw : Str, ∀ d1 d2 : List Record, ∀ res : CompareResult,
      compareVersions v1 v2 d1 d2 kwRaw tagRaw = some res →
        res.matches1 = d1.filter (entryMatches (lowerS kwRaw) (lowerS tagRaw)) ∧
        res.matches2 = d2.filter (entryMatches (lowerS kwRaw) (lowerS tagRaw)) ∧
        res.count1 = res.matches1.length ∧
        res.count2 = res.matches2.length ∧
        res.combined = res.matches1 ++ res.matches2 ∧
        ∀ r : Record, r ∈ res.combined ↔
          ((r ∈ d1 ∨ r ∈ d2) ∧
            entryMatches (lowerS kwRaw) (lowerS tagRaw) r = true)) ∧
    entryMatches (lowerS (cs "hello")) (lowerS (cs ""))
      ⟨cs "Hello World", cs "", cs "CBT"⟩ = true ∧
    entryMatches (lowerS (cs "HELLO")) (lowerS (cs ""))
      ⟨cs "Hello World", cs "", cs "CBT"⟩ = true := by
  refine ⟨?_, by decide, by decide⟩
  intro v1 v2 kw tg d1 d2 res h
  unfold compareVersions at h
  by_cases hg : v1 ≠ v2 ∧ ¬(lowerS kw).isEmpty
  · rw [if_pos hg] at h
    rw [Option.some.injEq] at h
    subst h
    refine ⟨rfl, rfl, rfl, rfl, rfl, ?_⟩
    intro r
    simp only [List.mem_append, List.mem_filter]
    constructor
    · rintro (⟨hd, hm⟩ | ⟨hd, hm⟩)
      · exact ⟨Or.inl hd, hm⟩
      · exact ⟨Or.inr hd, hm⟩
    · rintro ⟨hd | hd, hm⟩
      · exact Or.inl ⟨hd, hm⟩
      · exact Or.inr ⟨hd, hm⟩
  · rw [if_neg hg] at h
    exact absurd h (by simp)

/-- Witness for claim C9 at a concrete comparison: one matching record in
the first file, none in the second. -/
theorem claim9_compare_filter_witness :
    (CompareResult.mk [⟨cs "Hello World", cs "", cs "CBT"⟩] [] 1 0
        [⟨cs "Hello World", cs "", cs "CBT"⟩]).count1 =
      (CompareResult.mk [⟨cs "Hello World", cs "", cs "CBT"⟩] [] 1 0
        [⟨cs "Hello World", cs "", cs "CBT"⟩]).matches1.length ∧
    (CompareResult.mk [⟨cs "Hello World", cs "", cs "CBT"⟩] [] 1 0
        [⟨cs "Hello World", cs "", cs "CBT"⟩]).combined =
      (CompareResult.mk [⟨cs "Hello World", cs "", cs "CBT"⟩] [] 1 0
          [⟨cs "Hello World", cs "", cs "CBT"⟩]).matches1 ++
        (CompareResult.mk [⟨cs "Hello World", cs "", cs "CBT"⟩] [] 1 0
          [⟨cs "Hello World", cs "", cs "CBT"⟩]).matches2 := by
  have h := claim9_compare_filter.1 (cs "f1") (cs "f2") (cs "HELLO") (cs "")
    [⟨cs "Hello World", cs "", cs "CBT"⟩] []
    (CompareResult.mk [⟨cs "Hello World", cs "", cs "CBT"⟩] [] 1 0
      [⟨cs "Hello World", cs "", cs "CBT"⟩]) (by decide)
  exact ⟨h.2.2.1, h.2.2.2.2.1⟩

end MHApp

namespace MHApp

/- ### Substitution lemmas -/

theorem substAux_nil (m : Option Char → Str → Option Nat) (repl : Str) :
    ∀ fuel prev, substAux m repl fuel prev [] = [] := by
  intro fuel prev
  cases fuel <;> rfl

theorem substAux_of_no_match (m : Option Char → Str → Option Nat) (repl : Str) :
    ∀ s prev, hasMatchFrom m prev s = false →
      ∀ fuel, substAux m repl fuel prev s = s
  | [], _, _, fuel => substAux_nil m repl fuel _
  | c :: rest, prev, h, fuel => by
    simp only [hasMatchFrom, Bool.or_eq_false_iff] at h
    have hm : m prev (c :: rest) = none :=
      Option.not_isSome_iff_eq_none.1 (by simp [h.1])
    cases fuel with
    | zero => rfl
    | succ f =>
      simp only [substAux, hm]
      rw [substAux_of_no_match m repl rest (some c) h.2 f]

theorem reSub_of_no_match (m : Option Char → Str → Option Nat) (repl s : Str)
    (h : hasMatch m s = false) : reSub m repl s = s :=
  substAux_of_no_match m repl s none h s.length

/-- When the pattern matches the whole input at position zero, re.sub
replaces everything and the result is exactly the replacement. -/
theorem reSub_full_match (m : Option Char → Str → Option Nat) (repl : Str) :
    ∀ s : Str, s ≠ [] → m none s = some s.length → reSub m repl s = repl := by
  intro s hs hm
  cases s with
  | nil => exact absurd rfl hs
  | cons c rest =>
    show substAux m repl (rest.length + 1) none (c :: rest) = repl
    simp only [List.length_cons] at hm
    simp only [substAux, hm]
    have hk : rest.length + 1 ≠ 0 := Nat.succ_ne_zero _
    rw [if_neg hk]
    have hd : List.drop (rest.length + 1) (c :: rest) = [] :=
      List.drop_eq_nil_of_le (by simp)
    rw [hd, substAux_nil, List.append_nil]

theorem firstRun_append_stop (p : Char → Bool) :
    ∀ a : Str, ∀ c t, (∀ x ∈ a, p x = true) → p c = false →
      firstRun p (a ++ c :: t) = a.length
  | [], c, t, _, hc => by simp [firstRun, hc]
  | x :: a, c, t, ha, hc => by
    show firstRun p (x :: (a ++ c :: t)) = a.length + 1
    simp only [firstRun, ha x (by simp), if_true]
    rw [firstRun_append_stop p a c t (fun y hy => ha y (by simp [hy])) hc]

theorem firstRun_all (p : Char → Bool) :
    ∀ a : Str, (∀ x ∈ a, p x = true) → firstRun p a = a.length
  | [], _ => rfl
  | x :: a, ha => by
    simp only [firstRun, ha x (by simp), if_true, List.length_cons]
    rw [firstRun_all p a (fun y hy => ha y (by simp [hy]))]

end MHApp

namespace MHApp

theorem matchEmail_run (a b : Str) (ha : ∀ x ∈ a, isEmailCh x = true)
    (hb : ∀ x ∈ b, isEmailCh x = true) (hna : a ≠ []) (hnb : b ≠ []) :
    matchEmail none (a ++ '@' :: b) = some (a ++ '@' :: b).length := by
  have h1 : firstRun isEmailCh (a ++ '@' :: b) = a.length :=
    firstRun_append_stop isEmailCh a '@' b ha (by decide)
  have hlen : a.length ≠ 0 := fun h => hna (List.length_eq_zero.1 h)
  have hb1 : firstRun isEmailCh b = b.length := firstRun_all isEmailCh b hb
  have hblen : b.length ≠ 0 := fun h => hnb (List.length_eq_zero.1 h)
  simp only [matchEmail, h1, List.drop_left, hb1]
  rw [if_neg hlen]
  simp only [if_true, reduceIte]
  rw [if_neg hblen]
  simp only [List.length_append, List.length_cons, Option.some.injEq]
  omega

theorem matchDate_run (d m y : Str) (hd : ∀ x ∈ d, isDigitCh x = true)
    (hm : ∀ x ∈ m, isDigitCh x = true) (hy : ∀ x ∈ y, isDigitCh x = true)
    (hd1 : 1 ≤ d.length) (hd2 : d.length ≤ 2)
    (hm1 : 1 ≤ m.length) (hm2 : m.length ≤ 2)
    (hy1 : 2 ≤ y.length) (hy2 : y.length ≤ 4) :
    matchDate none (d ++ '/' :: (m ++ '/' :: y)) =
      some (d ++ '/' :: (m ++ '/' :: y)).length := by
  have h1 : firstRun isDigitCh (d ++ '/' :: (m ++ '/' :: y)) = d.length :=
    firstRun_append_stop isDigitCh d '/' _ hd (by decide)
  have h2 : firstRun isDigitCh (m ++ '/' :: y) = m.length :=
    firstRun_append_stop isDigitCh m '/' _ hm (by decide)
  have h3 : firstRun isDigitCh y = y.length := firstRun_all isDigitCh y hy
  have e1 : min d.length 2 = d.length := by omega
  have e2 : min m.length 2 = m.length := by omega
  have e3 : min y.length 4 = y.length := by omega
  have z1 : ¬d.length = 0 := by omega
  have z2 : ¬m.length = 0 := by omega
  have z3 : ¬y.length < 2 := by omega
  simp only [matchDate, h1, e1, List.drop_left, h2, e2, h3, e3]
  rw [if_neg z1, if_neg z2, if_neg z3]
  simp only [if_true, List.length_append, List.length_cons, Option.some.injEq]
  omega

/-- Claim C4 counterexample: the input a@b scrubs to the sixteen character
token [REDACTED_EMAIL], so the output is longer than the input, refuting
the same-or-shorter-length part of the claim. -/
theorem claim4_length_counterexample :
    scrub_text (cs "a@b") = cs "[REDACTED_EMAIL]" ∧
    ¬(scrub_text (cs "a@b")).length ≤ (cs "a@b").length := by
  decide

/-- Claim C4 as amended: scrub_text has no partial failure mode in the
sense that an input without any match of the four patterns (the empty
string included) is returned unchanged; the length of the output may
however exceed the length of the input, since the fixed placeholder tokens
can be longer than the text they replace. -/
theorem claim4_amended_no_match_unchanged :
    scrub_text [] = [] ∧
    ∀ T : Str, hasMatch matchName T = false → hasMatch matchDate T = false →
      hasMatch matchPhone T = false → hasMatch matchEmail T = false →
      scrub_text T = T := by
  refine ⟨rfl, ?_⟩
  intro T h1 h2 h3 h4
  show reSub matchEmail REDACTED_EMAIL
      (reSub matchPhone REDACTED_PHONE
        (reSub matchDate REDACTED_DATE
          (reSub matchName REDACTED_NAME T))) = T
  rw [reSub_of_no_match matchName REDACTED_NAME T h1,
    reSub_of_no_match matchDate REDACTED_DATE T h2,
    reSub_of_no_match matchPhone REDACTED_PHONE T h3,
    reSub_of_no_match matchEmail REDACTED_EMAIL T h4]

/-- Witness for the amended claim C4 at a concrete match-free input. -/
theorem claim4_amended_no_match_unchanged_witness :
    scrub_text (cs "hello world 42") = cs "hello world 42" :=
  claim4_amended_no_match_unchanged.2 (cs "hello world 42")
    (by decide) (by decide) (by decide) (by decide)

/-- Claim C5 counterexample: the string between exclamation marks is a
maximal run of non-whitespace characters around an @ sign, yet scrub_text
leaves it completely unchanged (the email pattern requires word, dot or
hyphen characters on both sides of the @), refuting the claim that every
surviving non-whitespace@non-whitespace sequence is redacted. -/
theorem claim5_nonwhitespace_counterexample :
    scrub_text (cs "!@!") = cs "!@!" ∧
    '@' ∈ scrub_text (cs "!@!") ∧
    ∀ x ∈ (cs "!@!"), isWsCh x = false := by
  decide

/-- Claim C5 as amended: the fourth rule replaces every sequence of the
form run-of-[word, dot, hyphen] characters, then @, then another such run
(the character classes of the source pattern, not arbitrary non-whitespace
runs) with the email token; a standalone such sequence is replaced in
full. -/
theorem claim5_amended_email_redaction :
    ∀ a b : Str, (∀ x ∈ a, isEmailCh x = true) → (∀ x ∈ b, isEmailCh x = true) →
      a ≠ [] → b ≠ [] →
      reSub matchEmail REDACTED_EMAIL (a ++ '@' :: b) = REDACTED_EMAIL := by
  intro a b ha hb hna hnb
  exact reSub_full_match matchEmail REDACTED_EMAIL (a ++ '@' :: b)
    (by simp) (matchEmail_run a b ha hb hna hnb)

/-- Witness for the amended claim C5 at a concrete address. -/
theorem claim5_amended_email_redaction_witness :
    reSub matchEmail REDACTED_EMAIL (cs "john" ++ '@' :: cs "example.com") =
      REDACTED_EMAIL :=
  claim5_amended_email_redaction (cs "john") (cs "example.com")
    (by decide) (by decide) (by decide) (by decide)

/-- Claim C6 counterexample: the date rule's year group is two to four
digits, so the three digit year of 1/2/345 is matched and the whole
sequence is redacted, refuting the claim that a three digit year is never
redacted by this rule. -/
theorem claim6_three_digit_year_counterexample :
    reSub matchDate REDACTED_DATE (cs "1/2/345") = REDACTED_DATE ∧
    scrub_text (cs "1/2/345") = cs "[REDACTED_DATE]" := by
  decide

/-- Claim C6 as amended: the second rule replaces slash-separated
sequences with a one or two digit day, a one or two digit month, and a
year of two, three or four digits; a standalone such sequence is replaced
in full. -/
theorem claim6_amended_date_redaction :
    ∀ d m y : Str, (∀ x ∈ d, isDigitCh x = true) → (∀ x ∈ m, isDigitCh x = true) →
      (∀ x ∈ y, isDigitCh x = true) →
      1 ≤ d.length → d.length ≤ 2 → 1 ≤ m.length → m.length ≤ 2 →
      2 ≤ y.length → y.length ≤ 4 →
      reSub matchDate REDACTED_DATE (d ++ '/' :: (m ++ '/' :: y)) =
        REDACTED_DATE := by
  intro d m y hd hm hy hd1 hd2 hm1 hm2 hy1 hy2
  exact reSub_full_match matchDate REDACTED_DATE _ (by simp)
    (matchDate_run d m y hd hm hy hd1 hd2 hm1 hm2 hy1 hy2)

/-- Witness for the amended claim C6, with a three digit year. -/
theorem claim6_amended_date_redaction_witness :
    reSub matchDate REDACTED_DATE (cs "1" ++ '/' :: (cs "2" ++ '/' :: cs "345")) =
      REDACTED_DATE :=
  claim6_amended_date_redaction (cs "1") (cs "2") (cs "345")
    (by decide) (by decide) (by decide) (by decide) (by decide)
    (by decide) (by decide) (by decide) (by decide)

end MHApp

namespace MHApp

/- ### Round trip: json.loads inverts json.dumps on the record schema -/

theorem hexVal_hexDigitCh : ∀ m, m < 16 → hexVal (hexDigitCh m) = some m := by
  decide

theorem hex4Val_hex4 (v : Nat) (hv : v < 65536) (rest : Str) :
    hex4Val (hex4 v ++ rest) = some (v, rest) := by
  have d3 := hexVal_hexDigitCh (v / 4096 % 16) (by omega)
  have d2 := hexVal_hexDigitCh (v / 256 % 16) (by omega)
  have d1 := hexVal_hexDigitCh (v / 16 % 16) (by omega)
  have d0 := hexVal_hexDigitCh (v % 16) (by omega)
  simp [hex4, List.cons_append, List.nil_append, hex4Val, d3, d2, d1, d0]
  omega

theorem char_valid_nat (c : Char) :
    c.toNat < 0xd800 ∨ (0xdfff < c.toNat ∧ c.toNat < 0x110000) := by
  have h := c.valid
  simp only [UInt32.isValidChar, Nat.isValidChar] at h
  exact h

theorem parseUEsc_bmp (v : Nat) (hv : v < 65536)
    (hns : ¬(0xd800 ≤ v ∧ v < 0xdc00)) (rest : Str) :
    parseUEsc (hex4 v ++ rest) = some (Char.ofNat v, rest) := by
  simp only [parseUEsc, hex4Val_hex4 v hv rest]
  rw [if_neg hns]

theorem parseUEsc_astral (hi lo v : Nat)
    (hhi : hi = 0xd800 + (v - 0x10000) / 0x400)
    (hlo : lo = 0xdc00 + (v - 0x10000) % 0x400)
    (h1 : 0x10000 ≤ v) (h2 : v < 0x110000) (rest : Str) :
    parseUEsc (hex4 hi ++ ('\\' :: 'u' :: (hex4 lo ++ rest))) =
      some (Char.ofNat v, rest) := by
  have hx1 := hex4Val_hex4 hi (by omega) ('\\' :: 'u' :: (hex4 lo ++ rest))
  have hx2 := hex4Val_hex4 lo (by omega) rest
  simp only [parseUEsc, hx1]
  rw [if_pos ⟨by omega, by omega⟩]
  rw [if_pos ⟨trivial, trivial⟩]
  simp only [hx2]
  rw [if_pos ⟨by omega, by omega⟩]
  have harg : 0x10000 + (hi - 0xd800) * 0x400 + (lo - 0xdc00) = v := by omega
  rw [harg]


end MHApp

namespace MHApp

theorem psb_quote (f : Nat) (rest : Str) :
    parseStringBody f ('"' :: rest) = some ([], rest) := by
  cases f <;> rfl

theorem psb_esc (f : Nat) (e : Char) (r : Str) (he : ¬e = 'u') (ch : Char)
    (hd : escDecode1 e = some ch) :
    parseStringBody (f + 1) ('\\' :: e :: r) =
      (parseStringBody f r).map (fun p => (ch :: p.1, p.2)) := by
  simp [parseStringBody, he, hd]

theorem psb_u (f : Nat) (r r1 : Str) (ch : Char) (hu : parseUEsc r = some (ch, r1)) :
    parseStringBody (f + 1) ('\\' :: 'u' :: r) =
      (parseStringBody f r1).map (fun p => (ch :: p.1, p.2)) := by
  simp [parseStringBody, hu]

theorem psb_plain (f : Nat) (c : Char) (rest : Str) (h1 : ¬c = '"')
    (h2 : ¬c = '\\') (h8 : ¬c.toNat < 0x20) :
    parseStringBody (f + 1) (c :: rest) =
      (parseStringBody f rest).map (fun p => (c :: p.1, p.2)) := by
  simp [parseStringBody, h1, h2, h8]

end MHApp

namespace MHApp

/-- json.loads inverts the json.dumps string escaping: parsing the escaped
text of s followed by a closing quote yields s and the remaining input
(fuel: one unit per source character suffices). -/
theorem parseStringBody_inv (s : Str) : ∀ (rest : Str) (f : Nat), s.length ≤ f →
    parseStringBody f (escString s ++ '"' :: rest) = some (s, rest) := by
  induction s with
  | nil =>
    intro rest f _
    exact psb_quote f rest
  | cons c s' ih =>
    intro rest f h
    have hlen : s'.length + 1 ≤ f := by simpa using h
    obtain ⟨f', rfl⟩ : ∃ f', f = f' + 1 := ⟨f - 1, by omega⟩
    have hf' : s'.length ≤ f' := by omega
    have IH := ih rest f' hf'
    show parseStringBody (f' + 1) ((escChar c ++ escString s') ++ '"' :: rest) =
      some (c :: s', rest)
    rw [List.append_assoc]
    by_cases h1 : c = '"'
    · subst h1
      rw [show escChar '"' = ['\\', '"'] from rfl]
      rw [show (['\\', '"'] : Str) ++ (escString s' ++ '"' :: rest) =
        '\\' :: '"' :: (escString s' ++ '"' :: rest) from rfl]
      rw [psb_esc f' '"' _ (by decide) '"' (by decide), IH]
      rfl
    by_cases h2 : c = '\\'
    · subst h2
      rw [show escChar '\\' = ['\\', '\\'] from rfl]
      rw [show (['\\', '\\'] : Str) ++ (escString s' ++ '"' :: rest) =
        '\\' :: '\\' :: (escString s' ++ '"' :: rest) from rfl]
      rw [psb_esc f' '\\' _ (by decide) '\\' (by decide), IH]
      rfl
    by_cases h3 : c = '\n'
    · subst h3
      rw [show escChar '\n' = ['\\', 'n'] from rfl]
      rw [show (['\\', 'n'] : Str) ++ (escString s' ++ '"' :: rest) =
        '\\' :: 'n' :: (escString s' ++ '"' :: rest) from rfl]
      rw [psb_esc f' 'n' _ (by decide) '\n' (by decide), IH]
      rfl
    by_cases h4 : c = '\t'
    · subst h4
      rw [show escChar '\t' = ['\\', 't'] from rfl]
      rw [show (['\\', 't'] : Str) ++ (escString s' ++ '"' :: rest) =
        '\\' :: 't' :: (escString s' ++ '"' :: rest) from rfl]
      rw [psb_esc f' 't' _ (by decide) '\t' (by decide), IH]
      rfl
    by_cases h5 : c = '\r'
    · subst h5
      rw [show escChar '\r' = ['\\', 'r'] from rfl]
      rw [show (['\\', 'r'] : Str) ++ (escString s' ++ '"' :: rest) =
        '\\' :: 'r' :: (escString s' ++ '"' :: rest) from rfl]
      rw [psb_esc f' 'r' _ (by decide) '\r' (by decide), IH]
      rfl
    by_cases h6 : c = '\x08'
    · subst h6
      rw [show escChar '\x08' = ['\\', 'b'] from rfl]
      rw [show (['\\', 'b'] : Str) ++ (escString s' ++ '"' :: rest) =
        '\\' :: 'b' :: (escString s' ++ '"' :: rest) from rfl]
      rw [psb_esc f' 'b' _ (by decide) '\x08' (by decide), IH]
      rfl
    by_cases h7 : c = '\x0c'
    · subst h7
      rw [show escChar '\x0c' = ['\\', 'f'] from rfl]
      rw [show (['\\', 'f'] : Str) ++ (escString s' ++ '"' :: rest) =
        '\\' :: 'f' :: (escString s' ++ '"' :: rest) from rfl]
      rw [psb_esc f' 'f' _ (by decide) '\x0c' (by decide), IH]
      rfl
    by_cases h8 : c.toNat < 0x20
    · have hesc : escChar c = uEsc c.toNat := by
        simp [escChar, h1, h2, h3, h4, h5, h6, h7, h8]
      rw [hesc]
      rw [show uEsc c.toNat ++ (escString s' ++ '"' :: rest) =
        '\\' :: 'u' :: (hex4 c.toNat ++ (escString s' ++ '"' :: rest)) from rfl]
      rw [psb_u f' _ _ (Char.ofNat c.toNat)
        (parseUEsc_bmp c.toNat (by omega) (by omega) _), IH, Char.ofNat_toNat]
      rfl
    by_cases h9 : c.toNat ≤ 0x7e
    · have hesc : escChar c = [c] := by
        simp [escChar, h1, h2, h3, h4, h5, h6, h7, h8, h9]
      rw [hesc]
      rw [show ([c] : Str) ++ (escString s' ++ '"' :: rest) =
        c :: (escString s' ++ '"' :: rest) from rfl]
      rw [psb_plain f' c _ h1 h2 h8, IH]
      rfl
    have hval := char_valid_nat c
    by_cases h10 : c.toNat ≤ 0xffff
    · have hesc : escChar c = uEsc c.toNat := by
        simp [escChar, h1, h2, h3, h4, h5, h6, h7, h8, h9, h10]
      rw [hesc]
      rw [show uEsc c.toNat ++ (escString s' ++ '"' :: rest) =
        '\\' :: 'u' :: (hex4 c.toNat ++ (escString s' ++ '"' :: rest)) from rfl]
      rw [psb_u f' _ _ (Char.ofNat c.toNat)
        (parseUEsc_bmp c.toNat (by omega) (by omega) _), IH, Char.ofNat_toNat]
      rfl
    · obtain ⟨hi, hhi⟩ : ∃ hi, hi = 0xd800 + (c.toNat - 0x10000) / 0x400 :=
        ⟨_, rfl⟩
      obtain ⟨lo, hlo⟩ : ∃ lo, lo = 0xdc00 + (c.toNat - 0x10000) % 0x400 :=
        ⟨_, rfl⟩
      have hesc : escChar c = uEsc hi ++ uEsc lo := by
        rw [hhi, hlo]
        simp [escChar, h1, h2, h3, h4, h5, h6, h7, h8, h9, h10]
      rw [hesc]
      have hshape : (uEsc hi ++ uEsc lo) ++ (escString s' ++ '"' :: rest) =
          '\\' :: 'u' :: (hex4 hi ++
            ('\\' :: 'u' :: (hex4 lo ++ (escString s' ++ '"' :: rest)))) := by
        simp [uEsc, List.cons_append, List.append_assoc]
      rw [hshape]
      have hu := parseUEsc_astral hi lo c.toNat hhi hlo (by omega) (by omega)
        (escString s' ++ '"' :: rest)
      rw [psb_u f' _ _ (Char.ofNat c.toNat) hu, IH, Char.ofNat_toNat]
      rfl

end MHApp

namespace MHApp

theorem skipWs_cons_of (c : Char) (l : Str) (h : isJsonWs c = false) :
    skipWs (c :: l) = c :: l := by
  simp [skipWs, List.dropWhile, h]

theorem skipWs_space (l : Str) : skipWs (' ' :: l) = skipWs l := by
  simp [skipWs, List.dropWhile, isJsonWs]

theorem escChar_len (c : Char) : 1 ≤ (escChar c).length := by
  unfold escChar
  repeat' split
  all_goals simp [uEsc, hex4]

theorem escString_len (s : Str) : s.length ≤ (escString s).length := by
  induction s with
  | nil => simp [escString]
  | cons c s' ih =>
    have h := escChar_len c
    simp only [escString, List.length_append, List.length_cons]
    omega

theorem pj_val_str (f : Nat) (s0 X r2 : Str) (sv : Str)
    (hs : skipWs s0 = '"' :: X)
    (hp : parseStringBody X.length X = some (sv, r2)) :
    pjson (f + 1) (.val s0) = some (.v (.jstr sv), r2) := by
  simp [pjson, hs, hp]

theorem pj_val_obj (f : Nat) (s0 r r2 : Str) (c2 : Char)
    (l : List (Str × Jv)) (rr : Str)
    (hs : skipWs s0 = '\x7b' :: r) (hr : skipWs r = c2 :: r2)
    (hne : ¬c2 = '\x7d') (hm : pjson f (.mems r) = some (.ms l, rr)) :
    pjson (f + 1) (.val s0) = some (.v (.jobj l), rr) := by
  simp [pjson, hs, hr, hne, hm]

theorem pj_mems_str_more (g : Nat) (s0 key v T : Str)
    (l : List (Str × Jv)) (r5 : Str)
    (hs : skipWs s0 = '"' :: (escString key ++ '"' :: ':' :: ' ' :: '"' ::
      (escString v ++ '"' :: ',' :: T)))
    (hrest : pjson (g + 1) (.mems T) = some (.ms l, r5)) :
    pjson (g + 2) (.mems s0) = some (.ms ((key, .jstr v) :: l), r5) := by
  have hk := parseStringBody_inv key
    (':' :: ' ' :: '"' :: (escString v ++ '"' :: ',' :: T))
    (escString key ++ '"' :: ':' :: ' ' :: '"' ::
      (escString v ++ '"' :: ',' :: T)).length
    (by have := escString_len key; simp [List.length_append]; omega)
  have hv := pj_val_str g (' ' :: '"' :: (escString v ++ '"' :: ',' :: T))
    (escString v ++ '"' :: ',' :: T) (',' :: T) v
    (by rw [skipWs_space, skipWs_cons_of] <;> decide)
    (parseStringBody_inv v (',' :: T) _
      (by have := escString_len v; simp [List.length_append]; omega))
  show pjson (g + 1 + 1) (.mems s0) = _
  rw [pjson, hs]
  simp only [reduceIte, if_true, hk]
  rw [skipWs_cons_of ':' _ (by decide)]
  simp only [reduceIte, if_true, hv]
  rw [skipWs_cons_of ',' _ (by decide)]
  simp only [reduceIte, if_true, hrest]

theorem pj_mems_str_last (g : Nat) (s0 key v rest : Str)
    (hs : skipWs s0 = '"' :: (escString key ++ '"' :: ':' :: ' ' :: '"' ::
      (escString v ++ '"' :: '\x7d' :: rest))) :
    pjson (g + 2) (.mems s0) = some (.ms [(key, .jstr v)], rest) := by
  have hk := parseStringBody_inv key
    (':' :: ' ' :: '"' :: (escString v ++ '"' :: '\x7d' :: rest))
    (escString key ++ '"' :: ':' :: ' ' :: '"' ::
      (escString v ++ '"' :: '\x7d' :: rest)).length
    (by have := escString_len key; simp [List.length_append]; omega)
  have hv := pj_val_str g (' ' :: '"' :: (escString v ++ '"' :: '\x7d' :: rest))
    (escString v ++ '"' :: '\x7d' :: rest) ('\x7d' :: rest) v
    (by rw [skipWs_space, skipWs_cons_of] <;> decide)
    (parseStringBody_inv v ('\x7d' :: rest) _
      (by have := escString_len v; simp [List.length_append]; omega))
  show pjson (g + 1 + 1) (.mems s0) = _
  rw [pjson, hs]
  simp only [reduceIte, if_true, hk]
  rw [skipWs_cons_of ':' _ (by decide)]
  simp only [reduceIte, if_true, hv]
  rfl

end MHApp

namespace MHApp

/-- Parsing one serialized record (followed by anything) yields exactly
the record's JSON object value and the remaining input. -/
theorem pjson_dumpsRecord (r : Record) (rest : Str) (f : Nat) :
    pjson (f + 7) (.val (dumpsRecord r ++ rest)) =
      some (.v (recordJv r), rest) := by
  have hcolon : cs ": " = [':', ' '] := rfl
  have hcomma : cs ", " = [',', ' '] := rfl
  have hshape : dumpsRecord r ++ rest =
      '\x7b' :: '"' :: (escString (cs "prompt") ++ '"' :: ':' :: ' ' :: '"' ::
        (escString r.prompt ++ '"' :: ',' :: ' ' :: '"' ::
          (escString (cs "response") ++ '"' :: ':' :: ' ' :: '"' ::
            (escString r.response ++ '"' :: ',' :: ' ' :: '"' ::
              (escString (cs "tag") ++ '"' :: ':' :: ' ' :: '"' ::
                (escString r.tag ++ '"' :: '\x7d' :: rest)))))) := by
    simp [dumpsRecord, jstring, hcolon, hcomma, List.append_assoc,
      List.cons_append]
  rw [hshape]
  have hm3 := pj_mems_str_last (f + 2)
    (' ' :: '"' :: (escString (cs "tag") ++ '"' :: ':' :: ' ' :: '"' ::
      (escString r.tag ++ '"' :: '\x7d' :: rest)))
    (cs "tag") r.tag rest
    (by rw [skipWs_space, skipWs_cons_of _ _ (by decide)])
  have hm2 := pj_mems_str_more (f + 3)
    (' ' :: '"' :: (escString (cs "response") ++ '"' :: ':' :: ' ' :: '"' ::
      (escString r.response ++ '"' :: ',' :: ' ' :: '"' ::
        (escString (cs "tag") ++ '"' :: ':' :: ' ' :: '"' ::
          (escString r.tag ++ '"' :: '\x7d' :: rest)))))
    (cs "response") r.response
    (' ' :: '"' :: (escString (cs "tag") ++ '"' :: ':' :: ' ' :: '"' ::
      (escString r.tag ++ '"' :: '\x7d' :: rest)))
    [(cs "tag", .jstr r.tag)] rest
    (by rw [skipWs_space, skipWs_cons_of _ _ (by decide)])
    hm3
  have hm1 := pj_mems_str_more (f + 4)
    ('"' :: (escString (cs "prompt") ++ '"' :: ':' :: ' ' :: '"' ::
      (escString r.prompt ++ '"' :: ',' :: ' ' :: '"' ::
        (escString (cs "response") ++ '"' :: ':' :: ' ' :: '"' ::
          (escString r.response ++ '"' :: ',' :: ' ' :: '"' ::
            (escString (cs "tag") ++ '"' :: ':' :: ' ' :: '"' ::
              (escString r.tag ++ '"' :: '\x7d' :: rest)))))))
    (cs "prompt") r.prompt
    (' ' :: '"' :: (escString (cs "response") ++ '"' :: ':' :: ' ' :: '"' ::
      (escString r.response ++ '"' :: ',' :: ' ' :: '"' ::
        (escString (cs "tag") ++ '"' :: ':' :: ' ' :: '"' ::
          (escString r.tag ++ '"' :: '\x7d' :: rest)))))
    [(cs "response", .jstr r.response), (cs "tag", .jstr r.tag)] rest
    (by rw [skipWs_cons_of _ _ (by decide)])
    hm2
  exact pj_val_obj (f + 6) _ _ _ '"' _ rest
    (skipWs_cons_of _ _ (by decide))
    (skipWs_cons_of _ _ (by decide))
    (by decide) hm1

end MHApp

namespace MHApp

theorem dumpsRecord_len (r : Record) : 3 ≤ (dumpsRecord r).length := by
  simp [dumpsRecord, jstring, List.length_append, List.length_cons]
  omega

theorem pyJsonLoads_dumps (r : Record) :
    pyJsonLoads (dumpsRecord r) = some (recordJv r) := by
  unfold pyJsonLoads
  have hl : 3 ≤ (dumpsRecord r).length := dumpsRecord_len r
  obtain ⟨f, hf⟩ : ∃ f, 2 * (dumpsRecord r).length + 2 = f + 7 :=
    ⟨2 * (dumpsRecord r).length - 5, by omega⟩
  rw [hf]
  have h := pjson_dumpsRecord r [] f
  rw [List.append_nil] at h
  rw [h]
  rfl

theorem pyJsonLoads_dumps_nl (r : Record) :
    pyJsonLoads (dumpsRecord r ++ ['\n']) = some (recordJv r) := by
  unfold pyJsonLoads
  have hl : 3 ≤ (dumpsRecord r).length := dumpsRecord_len r
  obtain ⟨f, hf⟩ : ∃ f, 2 * (dumpsRecord r ++ ['\n']).length + 2 = f + 7 :=
    ⟨2 * (dumpsRecord r ++ ['\n']).length - 5, by simp [List.length_append]; omega⟩
  rw [hf]
  rw [pjson_dumpsRecord r ['\n'] f]
  rfl

theorem hexDigitCh_ne_nl : ∀ m, m < 16 → ¬hexDigitCh m = '\n' := by decide

theorem uEsc_no_nl (v : Nat) : ∀ x ∈ uEsc v, ¬x = '\n' := by
  intro x hx
  simp only [uEsc, hex4, List.mem_cons, List.not_mem_nil, or_false] at hx
  rcases hx with h | h | h | h | h | h
  · subst h; decide
  · subst h; decide
  · subst h; exact hexDigitCh_ne_nl _ (by omega)
  · subst h; exact hexDigitCh_ne_nl _ (by omega)
  · subst h; exact hexDigitCh_ne_nl _ (by omega)
  · subst h; exact hexDigitCh_ne_nl _ (by omega)

theorem escChar_no_nl (c : Char) : ∀ x ∈ escChar c, ¬x = '\n' := by
  intro x hx
  by_cases h1 : c = '"'
  · rw [h1, show escChar '"' = ['\\', '"'] from rfl] at hx
    rcases List.mem_cons.1 hx with h | h
    · subst h; decide
    · simp at h; subst h; decide
  by_cases h2 : c = '\\'
  · rw [h2, show escChar '\\' = ['\\', '\\'] from rfl] at hx
    rcases List.mem_cons.1 hx with h | h
    · subst h; decide
    · simp at h; subst h; decide
  by_cases h3 : c = '\n'
  · rw [h3, show escChar '\n' = ['\\', 'n'] from rfl] at hx
    rcases List.mem_cons.1 hx with h | h
    · subst h; decide
    · simp at h; subst h; decide
  by_cases h4 : c = '\t'
  · rw [h4, show escChar '\t' = ['\\', 't'] from rfl] at hx
    rcases List.mem_cons.1 hx with h | h
    · subst h; decide
    · simp at h; subst h; decide
  by_cases h5 : c = '\r'
  · rw [h5, show escChar '\r' = ['\\', 'r'] from rfl] at hx
    rcases List.mem_cons.1 hx with h | h
    · subst h; decide
    · simp at h; subst h; decide
  by_cases h6 : c = '\x08'
  · rw [h6, show escChar '\x08' = ['\\', 'b'] from rfl] at hx
    rcases List.mem_cons.1 hx with h | h
    · subst h; decide
    · simp at h; subst h; decide
  by_cases h7 : c = '\x0c'
  · rw [h7, show escChar '\x0c' = ['\\', 'f'] from rfl] at hx
    rcases List.mem_cons.1 hx with h | h
    · subst h; decide
    · simp at h; subst h; decide
  by_cases h8 : c.toNat < 0x20
  · have hesc : escChar c = uEsc c.toNat := by
      simp [escChar, h1, h2, h3, h4, h5, h6, h7, h8]
    rw [hesc] at hx
    exact uEsc_no_nl _ x hx
  by_cases h9 : c.toNat ≤ 0x7e
  · have hesc : escChar c = [c] := by
      simp [escChar, h1, h2, h3, h4, h5, h6, h7, h8, h9]
    rw [hesc] at hx
    simp at hx
    subst hx
    exact h3
  by_cases h10 : c.toNat ≤ 0xffff
  · have hesc : escChar c = uEsc c.toNat := by
      simp [escChar, h1, h2, h3, h4, h5, h6, h7, h8, h9, h10]
    rw [hesc] at hx
    exact uEsc_no_nl _ x hx
  · have hesc : escChar c =
        uEsc (0xd800 + (c.toNat - 0x10000) / 0x400) ++
          uEsc (0xdc00 + (c.toNat - 0x10000) % 0x400) := by
      simp [escChar, h1, h2, h3, h4, h5, h6, h7, h8, h9, h10]
    rw [hesc] at hx
    rcases List.mem_append.1 hx with h | h
    · exact uEsc_no_nl _ x h
    · exact uEsc_no_nl _ x h

theorem escString_no_nl (s : Str) : ∀ x ∈ escString s, ¬x = '\n' := by
  induction s with
  | nil => intro x hx; simp [escString] at hx
  | cons c s' ih =>
    intro x hx
    rcases List.mem_append.1 hx with h | h
    · exact escChar_no_nl c x h
    · exact ih x h

theorem dumpsRecord_no_nl (r : Record) : '\n' ∉ dumpsRecord r := by
  intro hx
  have hc1 : cs ": " = [':', ' '] := rfl
  have hc2 : cs ", " = [',', ' '] := rfl
  have k1 : '\n' ∉ escString (cs "prompt") :=
    fun h => escString_no_nl _ _ h rfl
  have k2 : '\n' ∉ escString r.prompt := fun h => escString_no_nl _ _ h rfl
  have k3 : '\n' ∉ escString (cs "response") :=
    fun h => escString_no_nl _ _ h rfl
  have k4 : '\n' ∉ escString r.response := fun h => escString_no_nl _ _ h rfl
  have k5 : '\n' ∉ escString (cs "tag") := fun h => escString_no_nl _ _ h rfl
  have k6 : '\n' ∉ escString r.tag := fun h => escString_no_nl _ _ h rfl
  simp [dumpsRecord, jstring, hc1, hc2, k1, k2, k3, k4, k5, k6,
    List.mem_append, List.mem_cons] at hx

theorem readlines_no_nl (l : Str) : l ≠ [] → '\n' ∉ l → readlines l = [l] := by
  induction l with
  | nil => intro h; exact absurd rfl h
  | cons c t ih =>
    intro _ hnl
    have hc : ¬c = '\n' := by
      intro he; exact hnl (by rw [he]; exact List.mem_cons_self _ _)
    have hnt : '\n' ∉ t := fun h => hnl (List.mem_cons_of_mem _ h)
    cases t with
    | nil => simp [readlines, hc]
    | cons d t' =>
      have h2 := ih (by simp) hnt
      rw [readlines, if_neg hc, h2]

theorem readlines_append_nl (a b : Str) (hnl : '\n' ∉ a) :
    readlines (a ++ '\n' :: b) = (a ++ ['\n']) :: readlines b := by
  induction a with
  | nil => simp [readlines]
  | cons c a' ih =>
    have hc : ¬c = '\n' := by
      intro he; exact hnl (by rw [he]; exact List.mem_cons_self _ _)
    have hna : '\n' ∉ a' := fun h => hnl (List.mem_cons_of_mem _ h)
    have ih2 := ih hna
    show readlines (c :: (a' ++ '\n' :: b)) = _
    rw [readlines, if_neg hc, ih2]
    simp [List.cons_append]

theorem load_save : ∀ rs : List Record,
    load (saveContent rs) = some (rs.map recordJv)
  | [] => rfl
  | [r] => by
    show load (dumpsRecord r) = _
    unfold load
    rw [readlines_no_nl (dumpsRecord r) (by simp [dumpsRecord])
      (dumpsRecord_no_nl r)]
    simp [loadLines, pyJsonLoads_dumps]
  | r :: r2 :: rest => by
    have ih : loadLines (readlines (saveContent (r2 :: rest))) =
        some ((r2 :: rest).map recordJv) := load_save (r2 :: rest)
    show load (dumpsRecord r ++ '\n' :: saveContent (r2 :: rest)) = _
    unfold load
    rw [readlines_append_nl _ _ (dumpsRecord_no_nl r)]
    simp [loadLines, pyJsonLoads_dumps_nl, ih]

end MHApp

namespace MHApp

/-- Claim C1: saving any finite sequence of records (serializing each as
one compact JSON object per line, newline-joined) and loading the
resulting content back returns exactly one parsed JSON object per record,
in order, and each such object carries the original prompt, response and
tag fields verbatim. -/
theorem claim1_save_load_round_trip :
    ∀ rs : List Record,
      load (saveContent rs) = some (rs.map recordJv) ∧
      rs.map (fun r => jvFields (recordJv r)) =
        rs.map (fun r => some (r.prompt, r.response, r.tag)) := by
  intro rs
  refine ⟨load_save rs, ?_⟩
  induction rs with
  | nil => rfl
  | cons r rest ih =>
    simp only [List.map_cons, List.cons.injEq]
    exact ⟨rfl, ih⟩

theorem loadLines_eq_none_iff : ∀ l : List Str,
    loadLines l = none ↔ ∃ x ∈ l, pyJsonLoads x = none
  | [] => by simp [loadLines]
  | x :: t => by
    cases hfx : pyJsonLoads x with
    | none =>
      simp only [loadLines, hfx]
      constructor
      · intro _
        exact ⟨x, List.mem_cons_self _ _, hfx⟩
      · intro _
        trivial
    | some v =>
      cases hmt : loadLines t with
      | none =>
        simp only [loadLines, hfx, hmt]
        constructor
        · intro _
          obtain ⟨z, hz, hzn⟩ := (loadLines_eq_none_iff t).1 hmt
          exact ⟨z, List.mem_cons_of_mem _ hz, hzn⟩
        · intro _; trivial
      | some ys =>
        simp only [loadLines, hfx, hmt]
        constructor
        · intro h; cases h
        · rintro ⟨z, hz, hzn⟩
          rcases List.mem_cons.1 hz with rfl | hz2
          · rw [hfx] at hzn; cases hzn
          · have h2 := (loadLines_eq_none_iff t).2 ⟨z, hz2, hzn⟩
            rw [hmt] at h2; cases h2

/-- Claim C7 counterexample: a file whose single line is an empty JSON
object loads successfully even though all three required fields are
absent (the load block performs no field validation), and a file with a
blank middle line fails to load (blank lines are not skipped but fed to
json.loads, which rejects them) even though every non-empty line is valid
JSON. -/
theorem claim7_missing_fields_counterexample :
    load (cs "\x7b\x7d") = some [Jv.jobj []] ∧
    jvFields (Jv.jobj []) = none ∧
    load (cs "\x7b\x7d\n\n\x7b\x7d") = none := by
  refine ⟨rfl, rfl, rfl⟩

/-- Claim C7 as amended: load applies json.loads to every line of the
file (blank lines included, since readlines keeps them) and fails exactly
when some line fails to parse as JSON; the three required fields are not
checked at load time, and on a failure no partial sequence is produced
(the whole result is the failure). -/
theorem claim7_amended_load_failure :
    ∀ content : Str,
      (load content = none ↔
        ∃ line ∈ readlines content, pyJsonLoads line = none) := by
  intro content
  exact loadLines_eq_none_iff (readlines content)

end MHApp
